import Mathlib

/-!
Shallow embedding of the Vamana graph builder
(src/rust/src/index/vector/vamana.rs) and proofs about it.

Coordinates and distances are modelled as exact rationals in place of the
float32 values of the source; machine floating point rounding is not modelled.
Fallible or panicking code paths return Option.
-/

namespace Vamana

/-- A vector of coordinates. -/
abbrev Vec := List ℚ

/-- Modelled from the spec: the L2 distance kernel l2_distance_simd
(crate::utils::distance, not under src) returns the squared Euclidean
distance, the sum of squared coordinate differences. -/
def l2 (a b : Vec) : ℚ := (List.zipWith (fun x y => (x - y) ^ 2) a b).sum

/-- In-memory builder state: the vector store and the adjacency lists
(vertices[i].neighbors in the source). -/
structure Builder where
  vectors : List Vec
  dim : ℕ
  adj : List (List ℕ)
deriving DecidableEq

/-- VamanaBuilder::get_vector. -/
def get_vector (g : Builder) (i : ℕ) : Vec := g.vectors.getD i []

/-- Graph::distance for VamanaBuilder (source lines 461-467). -/
def distance (g : Builder) (a b : ℕ) : ℚ := l2 (get_vector g a) (get_vector g b)

/-- Graph::neighbors (source lines 469-475). -/
def neighbors (g : Builder) (i : ℕ) : List ℕ := g.adj.getD i []

/-- VamanaBuilder::distance_to (source lines 333-337). -/
def distance_to (g : Builder) (q : Vec) (i : ℕ) : ℚ := l2 q (get_vector g i)

/-- Heap entry; the VertexWithDistance struct lives in graph.rs, which is not
under src. -/
structure VertexWithDistance where
  id : ℕ
  distance : ℚ
deriving DecidableEq

/-- Modelled from the spec: the heap pops the entry of smallest distance,
ties broken by ascending id (the Ord of VertexWithDistance is in graph.rs,
not under src; the spec fixes ascending-id tie-breaking). -/
def entryLE (a b : VertexWithDistance) : Bool :=
  a.distance < b.distance || (a.distance == b.distance && a.id ≤ b.id)

def insEntry (e : VertexWithDistance) : List VertexWithDistance → List VertexWithDistance
  | [] => [e]
  | f :: rest => if entryLE e f then e :: f :: rest else f :: insEntry e rest

/-- A binary heap that receives all its pushes before any pop dispenses its
entries in sorted order; robust_prune builds its heap once from visited. -/
def sortEntries (l : List VertexWithDistance) : List VertexWithDistance :=
  l.foldr insEntry []

/-- The inner pop loop of robust_prune (the two heap.pop().unwrap() sites,
source lines 428-433): pop until an entry still in visited appears; none
models the unwrap panic on an empty heap. -/
def popUntilMember (visited : Finset ℕ) :
    List VertexWithDistance → Option (VertexWithDistance × List VertexWithDistance)
  | [] => none
  | e :: rest => if e.id ∈ visited then some (e, rest) else popUntilMember visited rest

/-- The selection loop of robust_prune (source lines 426-451), with explicit
fuel; the wrapper supplies heap length plus one, enough for the heap to
drain. -/
def pruneLoop (g : Builder) (id : ℕ) (alpha : ℚ) (r : ℕ) :
    ℕ → List VertexWithDistance → Finset ℕ → List ℕ → Option (List ℕ)
  | 0, _, _, _ => none
  | fuel + 1, heap, visited, acc =>
    if visited = ∅ then some acc.reverse
    else
      match popUntilMember visited heap with
      | none => none
      | some (p, heap') =>
        let acc' := p.id :: acc
        if r ≤ acc'.length then some acc'.reverse
        else
          pruneLoop g id alpha r fuel heap'
            (visited.filter fun v => ¬ alpha * distance g p.id v ≤ distance g id v) acc'

/-- Ascending enumeration of a finite set of naturals: the canonical
traversal order fixed for HashSet iteration (the source iterates a HashSet in
an unspecified order). -/
def finsetAsc (s : Finset ℕ) : List ℕ := (List.range (s.fold max 0 id + 1)).filter (· ∈ s)

/-- The effective candidate set of robust_prune (source lines 410-412): the
input set minus the target id, united with the current neighbors of the
target. -/
def pruneVisited (g : Builder) (id : ℕ) (visited₀ : Finset ℕ) : Finset ℕ :=
  (visited₀.erase id) ∪ (neighbors g id).toFinset

/-- The heap robust_prune builds over the candidate set (source lines
414-421), keyed by distance to the target. -/
def pruneHeap (g : Builder) (id : ℕ) (visited₀ : Finset ℕ) : List VertexWithDistance :=
  sortEntries ((finsetAsc (pruneVisited g id visited₀)).map fun p => ⟨p, distance g id p⟩)

/-- Algorithm 2: robust_prune (source lines 403-457). The candidate set drops
the target id, gains the current neighbors of the target, and is then consumed
by the selection loop. -/
def robust_prune (g : Builder) (id : ℕ) (visited₀ : Finset ℕ) (alpha : ℚ) (r : ℕ) :
    Option (List ℕ) :=
  pruneLoop g id alpha r ((pruneHeap g id visited₀).length + 1)
    (pruneHeap g id visited₀) (pruneVisited g id visited₀) []

/-- The candidate structure of greedy_search: a BTreeMap from distance to id,
kept as a strictly-ascending association list. -/
abbrev CandMap := List (ℚ × ℕ)

/-- BTreeMap::insert on the distance-keyed candidate map: keys stay strictly
ascending, and the stored id is replaced when the key is already present. -/
def mapInsert (k : ℚ) (v : ℕ) : CandMap → CandMap
  | [] => [(k, v)]
  | (k', v') :: rest =>
    if k < k' then (k, v) :: (k', v') :: rest
    else if k = k' then (k, v) :: rest
    else (k', v') :: mapInsert k v rest

/-- BTreeMap::contains_key. -/
def containsKey (k : ℚ) (m : CandMap) : Bool := m.any fun e => e.1 == k

/-- The neighbor-expansion loop of greedy_search (source lines 374-385). -/
def expand (g : Builder) (q : Vec) (search_size : ℕ) (visited : Finset ℕ) :
    CandMap → List ℕ → CandMap
  | cands, [] => cands
  | cands, n :: rest =>
    if n ∈ visited then expand g q search_size visited cands rest
    else
      let c1 := mapInsert (distance_to g q n) n cands
      expand g q search_size visited (if search_size < c1.length then c1.dropLast else c1) rest

/-- The main loop of greedy_search (source lines 367-386). The frontier heap
receives no push inside the loop body, so it is consumed as a list. -/
def searchLoop (g : Builder) (q : Vec) (search_size : ℕ) :
    List VertexWithDistance → Finset ℕ → CandMap → Finset ℕ × CandMap
  | [], visited, cands => (visited, cands)
  | p :: rest, visited, cands =>
    if p.id ∈ visited ∨ ¬ containsKey p.distance cands then
      searchLoop g q search_size rest visited cands
    else
      let visited' := insert p.id visited
      searchLoop g q search_size rest visited'
        (expand g q search_size visited' cands (neighbors g p.id))

/-- Algorithm 1: greedy_search (source lines 348-392). Returns the k best
candidate ids, the visited set, and — as observable instrumentation — the list
of every id ever pushed onto the frontier heap; the sole push site is the
start vertex at source line 362. -/
def greedy_search (g : Builder) (start : ℕ) (query : Vec) (k search_size : ℕ) :
    List ℕ × Finset ℕ × List ℕ :=
  ((((searchLoop g query search_size [⟨start, distance_to g query start⟩] ∅
      (mapInsert (distance_to g query start) start [])).2).take k).map Prod.snd,
    (searchLoop g query search_size [⟨start, distance_to g query start⟩] ∅
      (mapInsert (distance_to g query start) start [])).1,
    [start])

/-- Componentwise vector addition (arrow add). -/
def addVec (a b : Vec) : Vec := List.zipWith (· + ·) a b

/-- The centroid accumulation of find_medoid (source lines 177-192), the
float32 running sum modelled as exact rationals. -/
def centroid (dim : ℕ) (vs : List Vec) : Vec :=
  (vs.foldl addVec (List.replicate dim 0)).map (· / (vs.length : ℚ))

/-- The scan of argmin, carrying the next index, the best index and the best
value; only a strictly smaller value replaces the best, so the lowest index
wins ties. -/
def argminFrom : ℕ → ℕ → ℚ → List ℚ → ℕ
  | _, bi, _, [] => bi
  | i, bi, bv, x :: rest =>
    if x < bv then argminFrom (i + 1) i x rest else argminFrom (i + 1) bi bv rest

/-- Modelled from the spec: argmin (crate::arrow, not under src) returns the
index of the smallest distance, the lowest index on ties. -/
def argmin : List ℚ → Option ℕ
  | [] => none
  | x :: rest => some (argminFrom 1 0 x rest)

/-- find_medoid (source lines 166-229): centroid of all vectors, then the
closest vertex through argmin over the distance array. -/
def find_medoid (g : Builder) : Option ℕ :=
  argmin (g.vectors.map fun v => l2 (centroid g.dim g.vectors) v)

/-- The sampling loop of try_init (source lines 121-126): while the neighbor
set has fewer than r members, consume the next draw and insert it unless it
equals the vertex itself; once the set reaches r members the loop exits and
no further draw is consumed. -/
def sampleFold (i r : ℕ) : List ℕ → Finset ℕ → Finset ℕ
  | [], s => s
  | x :: rest, s =>
    if s.card < r then sampleFold i r rest (if x ≠ i then insert x s else s) else s

/-- Replace the list at one position (a no-op out of range, which the source
never reaches because sampled ids are below the row count). -/
def updAt (adj : List (List ℕ)) (p : ℕ) (f : List ℕ → List ℕ) : List (List ℕ) :=
  adj.set p (f (adj.getD p []))

/-- One iteration of try_init (source lines 115-139) for vertex i: build the
sampled neighbor set on top of the already present back edges, store it, then
append i to the list of every member. The set is traversed in ascending order
(HashSet iteration order is unspecified in the source). -/
def initStep (r : ℕ) (samples : List ℕ) (adj : List (List ℕ)) (i : ℕ) : List (List ℕ) :=
  ((finsetAsc (sampleFold i r samples (adj.getD i []).toFinset)).foldl
    (fun a p => updAt a p (fun l => l ++ [i]))
    (updAt adj i (fun _ => finsetAsc (sampleFold i r samples (adj.getD i []).toFinset))))

/-- try_init (source lines 74-148): every vertex starts with an empty list,
then each vertex in order receives its sampled neighbors and back edges. The
function is parametric in the per-vertex sample draws. -/
def try_init (n r : ℕ) (samples : ℕ → List ℕ) : List (List ℕ) :=
  (List.range n).foldl (fun adj i => initStep r (samples i) adj i) (List.replicate n [])

/-- The back-neighbor branch of index_pass (source lines 272-283): when the list of j would overflow r, robust_prune over J union the processed id; otherwise
the code returns the single-element list holding only the processed id. -/
def backUpdate (g : Builder) (id : ℕ) (alpha : ℚ) (r : ℕ) (j : ℕ) : Option (ℕ × List ℕ) :=
  if r < (neighbors g j).length + 1 then
    (robust_prune g j (insert id (neighbors g j).toFinset) alpha r).map fun nn => (j, nn)
  else some (j, [id])

/-- The write-back of one collected back-neighbor update (source lines
289-291). -/
def applyBack (adj : List (List ℕ)) (u : ℕ × List ℕ) : List (List ℕ) :=
  updAt adj u.1 fun _ => u.2

/-- The builder state right after the robust_prune write-back for a processed
vertex (source lines 267-268). -/
def pruneWriteBack (g : Builder) (id : ℕ) (newN : List ℕ) : Builder :=
  Builder.mk g.vectors g.dim (updAt g.adj id fun _ => newN)

/-- One iteration of the main loop of index_pass (source lines 246-292) for a
chosen vertex id: greedy search from the medoid toward the vector of id with
k = 1, robust_prune write-back (the intermediate builder), then the
back-neighbor updates computed against that intermediate state and applied in
order. Returns the intermediate and the final builder. -/
def index_step (g : Builder) (medoid : ℕ) (alpha : ℚ) (r l : ℕ) (id : ℕ) :
    Option (Builder × Builder) :=
  (robust_prune g id (greedy_search g medoid (get_vector g id) 1 l).2.1 alpha r).bind
    fun newN =>
      ((neighbors (pruneWriteBack g id newN) id).mapM
          (backUpdate (pruneWriteBack g id newN) id alpha r)).map
        fun ups =>
          (pruneWriteBack g id newN,
            Builder.mk g.vectors g.dim (ups.foldl applyBack (pruneWriteBack g id newN).adj))

/-- index_pass (source lines 231-295): the order argument is the shuffled id
sequence drawn from the rng of the pass. -/
def index_pass (g : Builder) (medoid : ℕ) (alpha : ℚ) (r l : ℕ) (order : List ℕ) :
    Option Builder :=
  order.foldlM (fun g id => (index_step g medoid alpha r l id).map Prod.snd) g

/-- The randomness try_new consumes from thread_rng (source lines 306-320):
the init sampling draws and one shuffled order per pass. try_new takes no
seed argument; these streams are drawn fresh from the thread-local
generator on every run. -/
structure Entropy where
  initSamples : ℕ → List ℕ
  shuffle1 : List ℕ
  shuffle2 : List ℕ

/-- try_new (source lines 298-324): random init, medoid, then two passes,
alpha fixed to 1 in the first pass and to the alpha of the caller in the second. -/
def try_new (vectors : List Vec) (dim : ℕ) (r : ℕ) (alpha : ℚ) (l : ℕ) (e : Entropy) :
    Option Builder := do
  let g0 : Builder := ⟨vectors, dim, try_init vectors.length r e.initSamples⟩
  let medoid ← find_medoid g0
  let g1 ← index_pass g0 medoid 1 r l e.shuffle1
  index_pass g1 medoid alpha r l e.shuffle2

/-- No adjacency list contains its own vertex id. -/
def noSelfLoop (adj : List (List ℕ)) : Prop := ∀ i, i ∉ adj.getD i []

/-- The ids carried by a heap. -/
def heapIds (h : List VertexWithDistance) : List ℕ := h.map VertexWithDistance.id

/-- Concrete instance: three vertices on a line at 0, 1, 5 with chain
adjacency 0 to 1 to 2. -/
def exA : Builder := ⟨[[0], [1], [5]], 1, [[1], [2], []]⟩

/-- Concrete instance: three vertices on a line at 0, 1, 2 with chain
adjacency 0 to 1 to 2. -/
def exB : Builder := ⟨[[0], [1], [2]], 1, [[1], [2], []]⟩

/-- Concrete instance: three isolated vertices at 0, 3, -2. -/
def exC : Builder := ⟨[[0], [3], [-2]], 1, [[], [], []]⟩

/-- Concrete instance: three isolated vertices at 0, 1, 2. -/
def exD : Builder := ⟨[[0], [1], [2]], 1, [[], [], []]⟩

/-- Concrete instance: eight identical vectors of dimension 3 (the degenerate
scenario S4 of the spec). -/
def exE : Builder := ⟨List.replicate 8 [1, 1, 1], 3, List.replicate 8 []⟩

/-- Concrete instance: two identical vectors joined both ways. -/
def exF : Builder := ⟨[[0], [0]], 1, [[1], [0]]⟩

/-- Concrete instance: three isolated vertices at 0, 1, 5. -/
def exM : Builder := ⟨[[0], [1], [5]], 1, [[], [], []]⟩

/-! General lemmas about the embedded operations. -/

theorem l2_nonneg : ∀ a b : Vec, 0 ≤ l2 a b
  | [], _ => by simp [l2]
  | _ :: _, [] => by simp [l2]
  | x :: a, y :: b => by
    have h := l2_nonneg a b
    have hsq : (0 : ℚ) ≤ (x - y) ^ 2 := sq_nonneg _
    simpa [l2, List.zipWith] using add_nonneg hsq h

theorem l2_self : ∀ a : Vec, l2 a a = 0
  | [] => rfl
  | x :: a => by simp [l2, List.zipWith, l2_self a]

theorem distance_self (g : Builder) (a : ℕ) : distance g a a = 0 := l2_self _

theorem distance_nonneg (g : Builder) (a b : ℕ) : 0 ≤ distance g a b := l2_nonneg _ _

theorem popUntilMember_eq (visited : Finset ℕ) :
    ∀ (heap : List VertexWithDistance) p heap',
      popUntilMember visited heap = some (p, heap') →
      ∃ pre, heap = pre ++ p :: heap' ∧ (∀ e ∈ pre, e.id ∉ visited) ∧ p.id ∈ visited := by
  intro heap
  induction heap with
  | nil => intro p heap' h; simp [popUntilMember] at h
  | cons e rest ih =>
    intro p heap' h
    by_cases he : e.id ∈ visited
    · refine ⟨[], ?_, by simp, ?_⟩
      · simp [popUntilMember, he] at h
        simp [h.1, h.2]
      · simp [popUntilMember, he] at h
        simpa [← h.1] using he
    · simp only [popUntilMember, if_neg he] at h
      obtain ⟨pre, hpre, hmem, hp⟩ := ih p heap' h
      exact ⟨e :: pre, by simp [hpre], by simpa [he] using hmem, hp⟩

theorem popUntilMember_isSome (visited : Finset ℕ) :
    ∀ heap : List VertexWithDistance, (∃ e ∈ heap, e.id ∈ visited) →
      (popUntilMember visited heap).isSome := by
  intro heap
  induction heap with
  | nil => rintro ⟨e, he, _⟩; simp at he
  | cons f rest ih =>
    rintro ⟨e, he, hev⟩
    by_cases hf : f.id ∈ visited
    · simp [popUntilMember, hf]
    · rcases List.mem_cons.mp he with rfl | hrest
      · exact absurd hev hf
      · simpa [popUntilMember, hf] using ih ⟨e, hrest, hev⟩

theorem insEntry_perm (e : VertexWithDistance) :
    ∀ l : List VertexWithDistance, (insEntry e l).Perm (e :: l) := by
  intro l
  induction l with
  | nil => simp [insEntry]
  | cons f rest ih =>
    by_cases h : entryLE e f
    · simp [insEntry, h]
    · simp only [insEntry, if_neg h]
      exact (ih.cons f).trans (List.Perm.swap e f rest)

theorem sortEntries_perm : ∀ l : List VertexWithDistance, (sortEntries l).Perm l := by
  intro l
  induction l with
  | nil => simp [sortEntries]
  | cons e rest ih =>
    have : sortEntries (e :: rest) = insEntry e (sortEntries rest) := rfl
    rw [this]
    exact (insEntry_perm e (sortEntries rest)).trans (ih.cons e)

theorem mem_finsetAsc (s : Finset ℕ) (x : ℕ) : x ∈ finsetAsc s ↔ x ∈ s := by
  constructor
  · intro h
    simpa using (List.mem_filter.mp h).2
  · intro h
    refine List.mem_filter.mpr ⟨List.mem_range.mpr ?_, by simpa using h⟩
    have hle : x ≤ s.fold max 0 id := (Finset.le_fold_max x).mpr (Or.inr ⟨x, h, le_refl x⟩)
    omega

theorem finsetAsc_nodup (s : Finset ℕ) : (finsetAsc s).Nodup :=
  (List.nodup_range _).filter _

theorem pruneLoop_eq_empty (g : Builder) (id : ℕ) (alpha : ℚ) (r f : ℕ)
    (heap : List VertexWithDistance) (visited : Finset ℕ) (acc : List ℕ)
    (hv : visited = ∅) :
    pruneLoop g id alpha r (f + 1) heap visited acc = some acc.reverse := by
  simp [pruneLoop, hv]

theorem pruneLoop_eq_none (g : Builder) (id : ℕ) (alpha : ℚ) (r f : ℕ)
    (heap : List VertexWithDistance) (visited : Finset ℕ) (acc : List ℕ)
    (hv : ¬ visited = ∅) (hpop : popUntilMember visited heap = none) :
    pruneLoop g id alpha r (f + 1) heap visited acc = none := by
  simp [pruneLoop, hv, hpop]

theorem pruneLoop_eq_break (g : Builder) (id : ℕ) (alpha : ℚ) (r f : ℕ)
    (heap heap' : List VertexWithDistance) (visited : Finset ℕ) (acc : List ℕ)
    (p : VertexWithDistance)
    (hv : ¬ visited = ∅) (hpop : popUntilMember visited heap = some (p, heap'))
    (hr : r ≤ acc.length + 1) :
    pruneLoop g id alpha r (f + 1) heap visited acc = some (p.id :: acc).reverse := by
  simp [pruneLoop, hv, hpop, hr]

theorem pruneLoop_eq_step (g : Builder) (id : ℕ) (alpha : ℚ) (r f : ℕ)
    (heap heap' : List VertexWithDistance) (visited : Finset ℕ) (acc : List ℕ)
    (p : VertexWithDistance)
    (hv : ¬ visited = ∅) (hpop : popUntilMember visited heap = some (p, heap'))
    (hr : ¬ r ≤ acc.length + 1) :
    pruneLoop g id alpha r (f + 1) heap visited acc =
      pruneLoop g id alpha r f heap'
        (visited.filter fun w => ¬ alpha * distance g p.id w ≤ distance g id w)
        (p.id :: acc) := by
  simp [pruneLoop, hv, hpop, hr]

theorem pruneLoop_isSome (g : Builder) (id : ℕ) (alpha : ℚ) (r : ℕ) :
    ∀ (fuel : ℕ) (heap : List VertexWithDistance) (visited : Finset ℕ) (acc : List ℕ),
      (heapIds heap).Nodup → (∀ v ∈ visited, v ∈ heapIds heap) →
      heap.length < fuel → (pruneLoop g id alpha r fuel heap visited acc).isSome := by
  intro fuel
  induction fuel with
  | zero => intro heap _ _ _ _ hlen; omega
  | succ f ih =>
    intro heap visited acc hnd hmem hlen
    by_cases hv : visited = ∅
    · simp [pruneLoop_eq_empty g id alpha r f heap visited acc hv]
    · obtain ⟨v, hvmem⟩ := Finset.nonempty_iff_ne_empty.mpr hv
      obtain ⟨e, he, heid⟩ := List.mem_map.mp (hmem v hvmem)
      have hsome : (popUntilMember visited heap).isSome :=
        popUntilMember_isSome visited heap ⟨e, he, heid ▸ hvmem⟩
      obtain ⟨⟨p, heap'⟩, hpop⟩ := Option.isSome_iff_exists.mp hsome
      obtain ⟨pre, hdecomp, hpre, hpid⟩ := popUntilMember_eq visited heap p heap' hpop
      by_cases hr : r ≤ acc.length + 1
      · simp [pruneLoop_eq_break g id alpha r f heap heap' visited acc p hv hpop hr]
      · have hlentot : heap.length = pre.length + 1 + heap'.length := by
          rw [hdecomp]; simp; omega
        have hsub : List.Sublist heap' heap := by
          rw [hdecomp]
          exact ((List.sublist_cons_self p heap').trans (List.sublist_append_right pre _))
        have hnd' : (heapIds heap').Nodup := hnd.sublist (hsub.map VertexWithDistance.id)
        have hmem' : ∀ w ∈ visited.filter
            (fun w => ¬ alpha * distance g p.id w ≤ distance g id w), w ∈ heapIds heap' := by
          intro w hw
          obtain ⟨hwv, hwp⟩ := Finset.mem_filter.mp hw
          have hwne : w ≠ p.id := by
            intro hwe
            exact hwp (by simpa [hwe, distance_self] using distance_nonneg g id p.id)
          have hwheap : w ∈ heapIds heap := hmem w hwv
          rw [hdecomp] at hwheap
          simp only [heapIds, List.map_append, List.map_cons, List.mem_append,
            List.mem_cons] at hwheap
          rcases hwheap with hl | hl
          · obtain ⟨e', he', he'id⟩ := List.mem_map.mp hl
            exact absurd (he'id ▸ hwv) (hpre e' he')
          · rcases hl with hl | hl
            · exact absurd hl hwne
            · simpa [heapIds] using hl
        have hlen' : heap'.length < f := by omega
        rw [pruneLoop_eq_step g id alpha r f heap heap' visited acc p hv hpop hr]
        exact ih heap' _ (p.id :: acc) hnd' hmem' hlen'

theorem pruneLoop_acc_sub (g : Builder) (id : ℕ) (alpha : ℚ) (r : ℕ) :
    ∀ (fuel : ℕ) (heap : List VertexWithDistance) (visited : Finset ℕ) (acc out : List ℕ),
      pruneLoop g id alpha r fuel heap visited acc = some out → ∀ x ∈ acc, x ∈ out := by
  intro fuel
  induction fuel with
  | zero => intro heap visited acc out h; simp [pruneLoop] at h
  | succ f ih =>
    intro heap visited acc out h x hx
    by_cases hv : visited = ∅
    · rw [pruneLoop_eq_empty g id alpha r f heap visited acc hv] at h
      obtain rfl : acc.reverse = out := by simpa using h
      exact List.mem_reverse.mpr hx
    · rcases hpop : popUntilMember visited heap with _ | ⟨p, heap'⟩
      · rw [pruneLoop_eq_none g id alpha r f heap visited acc hv hpop] at h
        exact absurd h (by simp)
      · by_cases hr : r ≤ acc.length + 1
        · rw [pruneLoop_eq_break g id alpha r f heap heap' visited acc p hv hpop hr] at h
          obtain rfl : (p.id :: acc).reverse = out := by simpa using h
          exact List.mem_reverse.mpr (List.mem_cons_of_mem _ hx)
        · rw [pruneLoop_eq_step g id alpha r f heap heap' visited acc p hv hpop hr] at h
          exact ih _ _ _ _ h x (List.mem_cons_of_mem _ hx)

theorem pruneLoop_out_mem (g : Builder) (id : ℕ) (alpha : ℚ) (r : ℕ) :
    ∀ (fuel : ℕ) (heap : List VertexWithDistance) (visited : Finset ℕ) (acc out : List ℕ),
      pruneLoop g id alpha r fuel heap visited acc = some out →
      ∀ x ∈ out, x ∈ acc ∨ x ∈ visited := by
  intro fuel
  induction fuel with
  | zero => intro heap visited acc out h; simp [pruneLoop] at h
  | succ f ih =>
    intro heap visited acc out h x hx
    by_cases hv : visited = ∅
    · rw [pruneLoop_eq_empty g id alpha r f heap visited acc hv] at h
      obtain rfl : acc.reverse = out := by simpa using h
      exact Or.inl (List.mem_reverse.mp hx)
    · rcases hpop : popUntilMember visited heap with _ | ⟨p, heap'⟩
      · rw [pruneLoop_eq_none g id alpha r f heap visited acc hv hpop] at h
        exact absurd h (by simp)
      · obtain ⟨pre, hdecomp, hpre, hpid⟩ := popUntilMember_eq visited heap p heap' hpop
        by_cases hr : r ≤ acc.length + 1
        · rw [pruneLoop_eq_break g id alpha r f heap heap' visited acc p hv hpop hr] at h
          obtain rfl : (p.id :: acc).reverse = out := by simpa using h
          rcases List.mem_cons.mp (List.mem_reverse.mp hx) with hcase | hcase
          · exact Or.inr (hcase ▸ hpid)
          · exact Or.inl hcase
        · rw [pruneLoop_eq_step g id alpha r f heap heap' visited acc p hv hpop hr] at h
          rcases ih _ _ _ _ h x hx with hcase | hcase
          · rcases List.mem_cons.mp hcase with hcase' | hcase'
            · exact Or.inr (hcase' ▸ hpid)
            · exact Or.inl hcase'
          · exact Or.inr (Finset.mem_of_mem_filter x hcase)

theorem pruneLoop_coverage (g : Builder) (id : ℕ) (alpha : ℚ) (r : ℕ) :
    ∀ (fuel : ℕ) (heap : List VertexWithDistance) (visited : Finset ℕ) (acc out : List ℕ),
      pruneLoop g id alpha r fuel heap visited acc = some out →
      ∀ v ∈ visited,
        v ∈ out ∨ (∃ p ∈ out, alpha * distance g p v ≤ distance g id v) ∨ r ≤ out.length := by
  intro fuel
  induction fuel with
  | zero => intro heap visited acc out h; simp [pruneLoop] at h
  | succ f ih =>
    intro heap visited acc out h v hvmem
    by_cases hv : visited = ∅
    · exact absurd (hv ▸ hvmem) (Finset.not_mem_empty v)
    · rcases hpop : popUntilMember visited heap with _ | ⟨p, heap'⟩
      · rw [pruneLoop_eq_none g id alpha r f heap visited acc hv hpop] at h
        exact absurd h (by simp)
      · by_cases hr : r ≤ acc.length + 1
        · rw [pruneLoop_eq_break g id alpha r f heap heap' visited acc p hv hpop hr] at h
          obtain rfl : (p.id :: acc).reverse = out := by simpa using h
          refine Or.inr (Or.inr ?_)
          simpa using hr
        · rw [pruneLoop_eq_step g id alpha r f heap heap' visited acc p hv hpop hr] at h
          by_cases hvf : v ∈ visited.filter
              (fun w => ¬ alpha * distance g p.id w ≤ distance g id w)
          · exact ih _ _ _ _ h v hvf
          · have hcond : alpha * distance g p.id v ≤ distance g id v := by
              by_contra hc
              exact hvf (Finset.mem_filter.mpr ⟨hvmem, hc⟩)
            have hpin : p.id ∈ out :=
              pruneLoop_acc_sub g id alpha r _ _ _ _ _ h p.id (List.mem_cons_self _ _)
            exact Or.inr (Or.inl ⟨p.id, hpin, hcond⟩)

theorem pruneHeap_ids_perm (g : Builder) (id : ℕ) (visited₀ : Finset ℕ) :
    (heapIds (pruneHeap g id visited₀)).Perm (finsetAsc (pruneVisited g id visited₀)) := by
  have h1 := (sortEntries_perm ((finsetAsc (pruneVisited g id visited₀)).map
    fun p => (⟨p, distance g id p⟩ : VertexWithDistance))).map VertexWithDistance.id
  simpa [pruneHeap, heapIds, List.map_map, Function.comp_def] using h1

theorem pruneHeap_mem (g : Builder) (id : ℕ) (visited₀ : Finset ℕ) :
    ∀ v ∈ pruneVisited g id visited₀, v ∈ heapIds (pruneHeap g id visited₀) := by
  intro v hv
  exact (pruneHeap_ids_perm g id visited₀).mem_iff.mpr ((mem_finsetAsc _ _).mpr hv)

theorem robust_prune_isSome_aux (g : Builder) (id : ℕ) (visited₀ : Finset ℕ)
    (alpha : ℚ) (r : ℕ) : (robust_prune g id visited₀ alpha r).isSome := by
  unfold robust_prune
  apply pruneLoop_isSome
  · exact (pruneHeap_ids_perm g id _).nodup_iff.mpr (finsetAsc_nodup _)
  · exact pruneHeap_mem g id visited₀
  · omega

theorem robust_prune_out_mem (g : Builder) (id : ℕ) (visited₀ : Finset ℕ)
    (alpha : ℚ) (r : ℕ) (out : List ℕ) (h : robust_prune g id visited₀ alpha r = some out) :
    ∀ x ∈ out, x ∈ pruneVisited g id visited₀ := by
  intro x hx
  rcases pruneLoop_out_mem g id alpha r _ _ _ _ _ h x hx with hcase | hcase
  · simp at hcase
  · exact hcase

theorem pruneLoop_allzero (g : Builder) (id : ℕ) (alpha : ℚ) (r : ℕ)
    (hd : ∀ a b, distance g a b = 0) (f : ℕ) (heap heap' : List VertexWithDistance)
    (visited : Finset ℕ) (p : VertexWithDistance)
    (hv : ¬ visited = ∅) (hpop : popUntilMember visited heap = some (p, heap'))
    (hf : 1 ≤ f) :
    pruneLoop g id alpha r (f + 1) heap visited [] = some [p.id] := by
  by_cases hr1 : r ≤ 1
  · rw [pruneLoop_eq_break g id alpha r f heap heap' visited [] p hv hpop (by simpa using hr1)]
    simp
  · rw [pruneLoop_eq_step g id alpha r f heap heap' visited [] p hv hpop (by simpa using hr1)]
    have hfe : visited.filter (fun w => ¬ alpha * distance g p.id w ≤ distance g id w) = ∅ :=
      Finset.filter_false_of_mem (by intro x hx; simp [hd])
    obtain ⟨f', rfl⟩ : ∃ f', f = f' + 1 := ⟨f - 1, by omega⟩
    rw [hfe, pruneLoop_eq_empty g id alpha r f' heap' ∅ [p.id] rfl]
    simp

theorem robust_prune_allzero_aux (g : Builder) (id : ℕ) (visited₀ : Finset ℕ)
    (alpha : ℚ) (r : ℕ) (hd : ∀ a b, distance g a b = 0)
    (hne : (pruneVisited g id visited₀).Nonempty) :
    ∃ p, robust_prune g id visited₀ alpha r = some [p] := by
  have hv : ¬ pruneVisited g id visited₀ = ∅ := Finset.nonempty_iff_ne_empty.mp hne
  obtain ⟨v, hvmem⟩ := hne
  obtain ⟨e, he, heid⟩ := List.mem_map.mp (pruneHeap_mem g id visited₀ v hvmem)
  have hsome := popUntilMember_isSome (pruneVisited g id visited₀)
    (pruneHeap g id visited₀) ⟨e, he, heid ▸ hvmem⟩
  obtain ⟨⟨p, heap'⟩, hpop⟩ := Option.isSome_iff_exists.mp hsome
  have hlen : 1 ≤ (pruneHeap g id visited₀).length := by
    cases hh : pruneHeap g id visited₀ with
    | nil => rw [hh] at he; simp at he
    | cons a b => simp
  exact ⟨p.id, pruneLoop_allzero g id alpha r hd _ _ heap' _ p hv hpop hlen⟩

theorem mapInsert_mem (k : ℚ) (v : ℕ) :
    ∀ (m : CandMap) (e : ℚ × ℕ), e ∈ mapInsert k v m → e = (k, v) ∨ e ∈ m := by
  intro m
  induction m with
  | nil => intro e he; simpa [mapInsert] using he
  | cons f rest ih =>
    rcases f with ⟨k', v'⟩
    intro e he
    simp only [mapInsert] at he
    split at he
    · rcases List.mem_cons.mp he with h | h
      · exact Or.inl h
      · exact Or.inr h
    · split at he
      · rcases List.mem_cons.mp he with h | h
        · exact Or.inl h
        · exact Or.inr (List.mem_cons_of_mem _ h)
      · rcases List.mem_cons.mp he with h | h
        · exact Or.inr (h ▸ List.mem_cons_self _ _)
        · rcases ih e h with h' | h'
          · exact Or.inl h'
          · exact Or.inr (List.mem_cons_of_mem _ h')

theorem mapInsert_forall {P : ℚ × ℕ → Prop} (k : ℚ) (v : ℕ) (m : CandMap)
    (hm : ∀ e ∈ m, P e) (hkv : P (k, v)) : ∀ e ∈ mapInsert k v m, P e := by
  intro e he
  rcases mapInsert_mem k v m e he with h | h
  · exact h ▸ hkv
  · exact hm e h

theorem mapInsert_keysLt (k : ℚ) (v : ℕ) :
    ∀ m : CandMap, List.Pairwise (fun a b : ℚ × ℕ => a.1 < b.1) m →
      List.Pairwise (fun a b : ℚ × ℕ => a.1 < b.1) (mapInsert k v m) := by
  intro m
  induction m with
  | nil => intro _; simp [mapInsert]
  | cons f rest ih =>
    rcases f with ⟨k', v'⟩
    intro hm
    obtain ⟨hm1, hm2⟩ := List.pairwise_cons.mp hm
    by_cases h1 : k < k'
    · simp only [mapInsert, if_pos h1]
      refine List.pairwise_cons.mpr ⟨?_, hm⟩
      intro e he
      rcases List.mem_cons.mp he with rfl | he'
      · exact h1
      · exact lt_trans h1 (hm1 e he')
    · by_cases h2 : k = k'
      · simp only [mapInsert, if_neg h1, if_pos h2]
        refine List.pairwise_cons.mpr ⟨?_, hm2⟩
        intro e he
        exact h2 ▸ hm1 e he
      · simp only [mapInsert, if_neg h1, if_neg h2]
        refine List.pairwise_cons.mpr ⟨?_, ih hm2⟩
        intro e he
        rcases mapInsert_mem k v rest e he with rfl | he'
        · exact lt_of_le_of_ne (not_lt.mp h1) (fun he => h2 he.symm)
        · exact hm1 e he'

theorem expand_inv (g : Builder) (q : Vec) (L n : ℕ) (visited : Finset ℕ) :
    ∀ (ns : List ℕ) (cands : CandMap),
      (∀ j ∈ ns, j < n) →
      List.Pairwise (fun a b : ℚ × ℕ => a.1 < b.1) cands →
      (∀ e ∈ cands, e.1 = distance_to g q e.2) → (∀ e ∈ cands, e.2 < n) →
      List.Pairwise (fun a b : ℚ × ℕ => a.1 < b.1) (expand g q L visited cands ns)
      ∧ (∀ e ∈ expand g q L visited cands ns, e.1 = distance_to g q e.2)
      ∧ (∀ e ∈ expand g q L visited cands ns, e.2 < n) := by
  intro ns
  induction ns with
  | nil =>
    intro cands _ h1 h2 h3
    simp only [expand]
    exact ⟨h1, h2, h3⟩
  | cons m rest ih =>
    intro cands hns h1 h2 h3
    by_cases hv : m ∈ visited
    · simp only [expand, if_pos hv]
      exact ih cands (fun j hj => hns j (List.mem_cons_of_mem _ hj)) h1 h2 h3
    · simp only [expand, if_neg hv]
      have hc1lt := mapInsert_keysLt (distance_to g q m) m cands h1
      have hc1link : ∀ e ∈ mapInsert (distance_to g q m) m cands,
          e.1 = distance_to g q e.2 := mapInsert_forall _ _ cands h2 rfl
      have hc1rng : ∀ e ∈ mapInsert (distance_to g q m) m cands, e.2 < n :=
        mapInsert_forall _ _ cands h3 (hns m (List.mem_cons_self _ _))
      by_cases hcap : L < (mapInsert (distance_to g q m) m cands).length
      · simp only [if_pos hcap]
        exact ih _ (fun j hj => hns j (List.mem_cons_of_mem _ hj))
          (List.Pairwise.sublist (List.dropLast_sublist _) hc1lt)
          (fun e he => hc1link e ((List.dropLast_sublist _).subset he))
          (fun e he => hc1rng e ((List.dropLast_sublist _).subset he))
      · simp only [if_neg hcap]
        exact ih _ (fun j hj => hns j (List.mem_cons_of_mem _ hj)) hc1lt hc1link hc1rng

theorem searchLoop_inv (g : Builder) (q : Vec) (L n : ℕ)
    (hwf : ∀ i, ∀ j ∈ neighbors g i, j < n) :
    ∀ (heap : List VertexWithDistance) (visited : Finset ℕ) (cands : CandMap),
      List.Pairwise (fun a b : ℚ × ℕ => a.1 < b.1) cands →
      (∀ e ∈ cands, e.1 = distance_to g q e.2) → (∀ e ∈ cands, e.2 < n) →
      List.Pairwise (fun a b : ℚ × ℕ => a.1 < b.1) (searchLoop g q L heap visited cands).2
      ∧ (∀ e ∈ (searchLoop g q L heap visited cands).2, e.1 = distance_to g q e.2)
      ∧ (∀ e ∈ (searchLoop g q L heap visited cands).2, e.2 < n) := by
  intro heap
  induction heap with
  | nil =>
    intro visited cands h1 h2 h3
    simp only [searchLoop]
    exact ⟨h1, h2, h3⟩
  | cons p rest ih =>
    intro visited cands h1 h2 h3
    by_cases hskip : p.id ∈ visited ∨ ¬ containsKey p.distance cands
    · simp only [searchLoop, if_pos hskip]
      exact ih visited cands h1 h2 h3
    · simp only [searchLoop, if_neg hskip]
      obtain ⟨e1, e2, e3⟩ := expand_inv g q L n (insert p.id visited)
        (neighbors g p.id) cands (hwf p.id) h1 h2 h3
      exact ih _ _ e1 e2 e3



theorem getD_mem (l : List ℚ) : ∀ t : ℕ, t < l.length → l.getD t 0 ∈ l := by
  induction l with
  | nil => intro t ht; simp at ht
  | cons a l ih =>
    intro t ht
    rcases t with _ | t
    · simp
    · simp only [List.getD_cons_succ]
      exact List.mem_cons_of_mem _ (ih t (by simpa using ht))

theorem argminFrom_spec :
    ∀ (rest : List ℚ) (i bi : ℕ) (bv : ℚ),
      (argminFrom i bi bv rest = bi ∧ ∀ x ∈ rest, bv ≤ x)
      ∨ ∃ j, j < rest.length ∧ argminFrom i bi bv rest = i + j ∧ rest.getD j 0 < bv
          ∧ (∀ t, t < rest.length → rest.getD j 0 ≤ rest.getD t 0)
          ∧ (∀ t, t < j → rest.getD j 0 < rest.getD t 0) := by
  intro rest
  induction rest with
  | nil => intro i bi bv; left; simp [argminFrom]
  | cons x rest ih =>
    intro i bi bv
    by_cases hx : x < bv
    · simp only [argminFrom, if_pos hx]
      rcases ih (i + 1) i x with ⟨heq, hall⟩ | ⟨j, hj, heq, hlt, hmin, hfirst⟩
      · right
        refine ⟨0, by simp, by simpa using heq, by simpa using hx, ?_, by omega⟩
        intro t ht
        rcases t with _ | t
        · simp
        · simp only [List.getD_cons_zero, List.getD_cons_succ]
          exact hall _ (getD_mem rest t (by simpa using ht))
      · right
        refine ⟨j + 1, by simpa using hj, heq.trans (by omega), ?_, ?_, ?_⟩
        · simpa [List.getD_cons_succ] using lt_trans hlt hx
        · intro t ht
          rcases t with _ | t
          · simpa [List.getD_cons_succ] using le_of_lt hlt
          · simp only [List.getD_cons_succ]
            exact hmin t (by simpa using ht)
        · intro t ht
          rcases t with _ | t
          · simpa [List.getD_cons_succ] using hlt
          · simp only [List.getD_cons_succ]
            exact hfirst t (by omega)
    · simp only [argminFrom, if_neg hx]
      rcases ih (i + 1) bi bv with ⟨heq, hall⟩ | ⟨j, hj, heq, hlt, hmin, hfirst⟩
      · left
        refine ⟨heq, ?_⟩
        intro y hy
        rcases List.mem_cons.mp hy with rfl | hy'
        · exact not_lt.mp hx
        · exact hall y hy'
      · right
        refine ⟨j + 1, by simpa using hj, heq.trans (by omega), ?_, ?_, ?_⟩
        · simpa [List.getD_cons_succ] using hlt
        · intro t ht
          rcases t with _ | t
          · simpa [List.getD_cons_succ] using le_of_lt (lt_of_lt_of_le hlt (not_lt.mp hx))
          · simp only [List.getD_cons_succ]
            exact hmin t (by simpa using ht)
        · intro t ht
          rcases t with _ | t
          · simpa [List.getD_cons_succ] using lt_of_lt_of_le hlt (not_lt.mp hx)
          · simp only [List.getD_cons_succ]
            exact hfirst t (by omega)

theorem argmin_spec (l : List ℚ) (m : ℕ) (h : argmin l = some m) :
    m < l.length ∧ (∀ j, j < l.length → l.getD m 0 ≤ l.getD j 0)
      ∧ ∀ j, j < m → l.getD m 0 < l.getD j 0 := by
  cases l with
  | nil => simp [argmin] at h
  | cons x rest =>
    have hm : argminFrom 1 0 x rest = m := by simpa [argmin] using h
    rcases argminFrom_spec rest 1 0 x with ⟨heq, hall⟩ | ⟨j, hj, heq, hlt, hmin, hfirst⟩
    · obtain rfl : m = 0 := by omega
      refine ⟨by simp, ?_, by omega⟩
      intro t ht
      rcases t with _ | t
      · simp
      · simp only [List.getD_cons_zero, List.getD_cons_succ]
        exact hall _ (getD_mem rest t (by simpa using ht))
    · obtain rfl : m = j + 1 := by omega
      refine ⟨by simpa using hj, ?_, ?_⟩
      · intro t ht
        rcases t with _ | t
        · simpa [List.getD_cons_succ] using le_of_lt hlt
        · simp only [List.getD_cons_succ]
          exact hmin t (by simpa using ht)
      · intro t ht
        rcases t with _ | t
        · simpa [List.getD_cons_succ] using hlt
        · simp only [List.getD_cons_succ]
          exact hfirst t (by omega)

theorem argmin_isSome (l : List ℚ) (h : l ≠ []) : ∃ m, argmin l = some m := by
  cases l with
  | nil => exact absurd rfl h
  | cons x rest => exact ⟨argminFrom 1 0 x rest, rfl⟩

theorem getD_map_l2 (c : Vec) : ∀ (l : List Vec) (j : ℕ), j < l.length →
    (l.map fun v => l2 c v).getD j 0 = l2 c (l.getD j []) := by
  intro l
  induction l with
  | nil => intro j hj; simp at hj
  | cons a l ih =>
    intro j hj
    rcases j with _ | j
    · simp
    · simp only [List.map_cons, List.getD_cons_succ]
      exact ih j (by simpa using hj)

theorem sampleFold_sub (i n r : ℕ) :
    ∀ (samples : List ℕ) (s : Finset ℕ), s ⊆ (Finset.range n).erase i →
      (∀ x ∈ samples, x < n) → sampleFold i r samples s ⊆ (Finset.range n).erase i := by
  intro samples
  induction samples with
  | nil => intro s hs _; simpa [sampleFold] using hs
  | cons x rest ih =>
    intro s hs hsam
    simp only [sampleFold]
    by_cases hc : s.card < r
    · simp only [if_pos hc]
      by_cases hxi : x ≠ i
      · simp only [if_pos hxi]
        refine ih (insert x s) ?_ (fun y hy => hsam y (List.mem_cons_of_mem _ hy))
        refine Finset.insert_subset_iff.mpr ⟨?_, hs⟩
        exact Finset.mem_erase.mpr ⟨hxi, Finset.mem_range.mpr (hsam x (List.mem_cons_self _ _))⟩
      · simp only [if_neg hxi]
        exact ih s hs (fun y hy => hsam y (List.mem_cons_of_mem _ hy))
    · simp only [if_neg hc]
      exact hs

theorem sampleFold_not_self (i r : ℕ) :
    ∀ (samples : List ℕ) (s : Finset ℕ), i ∉ s → i ∉ sampleFold i r samples s := by
  intro samples
  induction samples with
  | nil => intro s hs; simpa [sampleFold] using hs
  | cons x rest ih =>
    intro s hs
    simp only [sampleFold]
    by_cases hc : s.card < r
    · simp only [if_pos hc]
      by_cases hxi : x ≠ i
      · simp only [if_pos hxi]
        refine ih (insert x s) ?_
        intro hmem
        rcases Finset.mem_insert.mp hmem with h | h
        · exact hxi h.symm
        · exact hs h
      · simp only [if_neg hxi]
        exact ih s hs
    · simp only [if_neg hc]
      exact hs

theorem updAt_oob (adj : List (List ℕ)) (p : ℕ) (f : List ℕ → List ℕ)
    (hp : adj.length ≤ p) : updAt adj p f = adj := by
  simp [updAt, List.set_eq_of_length_le hp]

theorem updAt_getD_self : ∀ (adj : List (List ℕ)) (p : ℕ) (f : List ℕ → List ℕ),
    p < adj.length → (updAt adj p f).getD p [] = f (adj.getD p []) := by
  intro adj
  induction adj with
  | nil => intro p f hp; simp at hp
  | cons a adj ih =>
    intro p f hp
    rcases p with _ | p
    · simp [updAt]
    · have := ih p f (by simpa using hp)
      simpa [updAt, List.getD_cons_succ] using this

theorem updAt_getD_ne : ∀ (adj : List (List ℕ)) (p t : ℕ) (f : List ℕ → List ℕ),
    t ≠ p → (updAt adj p f).getD t [] = adj.getD t [] := by
  intro adj
  induction adj with
  | nil => intro p t f _; simp [updAt]
  | cons a adj ih =>
    intro p t f h
    rcases p with _ | p
    · rcases t with _ | t
      · exact absurd rfl h
      · simp [updAt, List.getD_cons_succ]
    · rcases t with _ | t
      · simp [updAt]
      · have := ih p t f (by omega)
        simpa [updAt, List.getD_cons_succ] using this

theorem replicate_getD (n : ℕ) : ∀ i : ℕ, (List.replicate n ([] : List ℕ)).getD i [] = [] := by
  induction n with
  | zero => intro i; simp
  | succ n ih =>
    intro i
    rcases i with _ | i
    · simp [List.replicate]
    · simp [List.replicate, List.getD_cons_succ, ih]


theorem pushFold_noSelf (i : ℕ) :
    ∀ (l : List ℕ) (a : List (List ℕ)), noSelfLoop a → (∀ p ∈ l, p ≠ i) →
      noSelfLoop (l.foldl (fun a p => updAt a p (fun s => s ++ [i])) a) := by
  intro l
  induction l with
  | nil => intro a h _; simpa using h
  | cons p rest ih =>
    intro a h hne
    simp only [List.foldl_cons]
    refine ih _ ?_ (fun y hy => hne y (List.mem_cons_of_mem _ hy))
    intro t
    by_cases htp : t = p
    · subst htp
      by_cases hlt : t < a.length
      · rw [updAt_getD_self a t _ hlt]
        intro hmem
        rcases List.mem_append.mp hmem with hmem | hmem
        · exact h t hmem
        · have hti : t = i := by simpa using hmem
          exact hne t (List.mem_cons_self _ _) hti
      · rw [updAt_oob a t _ (by omega)]
        exact h t
    · rw [updAt_getD_ne a p t _ htp]
      exact h t

theorem initStep_noSelf (r : ℕ) (samples : List ℕ) (adj : List (List ℕ)) (i : ℕ)
    (h : noSelfLoop adj) : noSelfLoop (initStep r samples adj i) := by
  have hbase : i ∉ (adj.getD i []).toFinset := by simpa using h i
  have hns : i ∉ sampleFold i r samples (adj.getD i []).toFinset :=
    sampleFold_not_self i r samples _ hbase
  unfold initStep
  refine pushFold_noSelf i _ _ ?_ ?_
  · intro t
    by_cases hti : t = i
    · subst hti
      by_cases hlt : t < adj.length
      · rw [updAt_getD_self adj t _ hlt]
        intro hmem
        exact hns ((mem_finsetAsc _ _).mp hmem)
      · rw [updAt_oob adj t _ (by omega)]
        exact h t
    · rw [updAt_getD_ne adj i t _ hti]
      exact h t
  · intro p hp hpi
    subst hpi
    exact hns ((mem_finsetAsc _ _).mp hp)

theorem try_init_noSelf (n r : ℕ) (samples : ℕ → List ℕ) :
    noSelfLoop (try_init n r samples) := by
  unfold try_init
  have hgen : ∀ (is : List ℕ) (adj : List (List ℕ)), noSelfLoop adj →
      noSelfLoop (is.foldl (fun adj i => initStep r (samples i) adj i) adj) := by
    intro is
    induction is with
    | nil => intro adj h; simpa using h
    | cons a rest ih =>
      intro adj h
      simp only [List.foldl_cons]
      exact ih _ (initStep_noSelf r (samples a) adj a h)
  refine hgen _ _ ?_
  intro i
  simp [replicate_getD]

theorem robust_prune_not_self_aux (g : Builder) (id : ℕ) (visited₀ : Finset ℕ)
    (alpha : ℚ) (r : ℕ) (out : List ℕ) (hself : id ∉ neighbors g id)
    (h : robust_prune g id visited₀ alpha r = some out) : id ∉ out := by
  intro hid
  have hmem := robust_prune_out_mem g id visited₀ alpha r out h id hid
  simp only [pruneVisited, Finset.mem_union, Finset.mem_erase, List.mem_toFinset] at hmem
  rcases hmem with hcase | hcase
  · exact hcase.1 rfl
  · exact hself hcase

theorem applyBack_noSelf (adj : List (List ℕ)) (u : ℕ × List ℕ)
    (h : noSelfLoop adj) (hu : u.1 ∉ u.2) : noSelfLoop (applyBack adj u) := by
  intro t
  by_cases htp : t = u.1
  · subst htp
    by_cases hlt : u.1 < adj.length
    · rw [applyBack, updAt_getD_self _ _ _ hlt]
      exact hu
    · rw [applyBack, updAt_oob _ _ _ (by omega)]
      exact h u.1
  · rw [applyBack, updAt_getD_ne _ _ _ _ htp]
    exact h t

theorem foldBack_noSelf :
    ∀ (ups : List (ℕ × List ℕ)) (adj : List (List ℕ)), noSelfLoop adj →
      (∀ u ∈ ups, u.1 ∉ u.2) → noSelfLoop (ups.foldl applyBack adj) := by
  intro ups
  induction ups with
  | nil => intro adj h _; simpa using h
  | cons u rest ih =>
    intro adj h hu
    simp only [List.foldl_cons]
    exact ih _ (applyBack_noSelf adj u h (hu u (List.mem_cons_self _ _)))
      (fun y hy => hu y (List.mem_cons_of_mem _ hy))

theorem mapM_mem_option {α β : Type} (f : α → Option β) :
    ∀ (js : List α) (ups : List β), js.mapM f = some ups →
      ∀ u ∈ ups, ∃ j ∈ js, f j = some u := by
  intro js
  induction js with
  | nil =>
    intro ups h u hu
    simp only [List.mapM_nil, pure, Option.some.injEq] at h
    subst h
    simp at hu
  | cons a rest ih =>
    intro ups h u hu
    simp only [List.mapM_cons] at h
    obtain ⟨b, hb, h2⟩ := Option.bind_eq_some.mp h
    obtain ⟨bs, hbs, h3⟩ := Option.bind_eq_some.mp h2
    have hups : ups = b :: bs := by
      simpa [pure] using h3.symm
    subst hups
    rcases List.mem_cons.mp hu with rfl | hu'
    · exact ⟨a, List.mem_cons_self _ _, hb⟩
    · obtain ⟨j, hj, hfj⟩ := ih bs hbs u hu'
      exact ⟨j, List.mem_cons_of_mem _ hj, hfj⟩

theorem backUpdate_no_self (g : Builder) (id : ℕ) (alpha : ℚ) (r : ℕ) (j : ℕ)
    (hg : noSelfLoop g.adj) (hji : j ≠ id) (u : ℕ × List ℕ)
    (h : backUpdate g id alpha r j = some u) : u.1 = j ∧ u.1 ∉ u.2 := by
  unfold backUpdate at h
  split at h
  · obtain ⟨nn, hnn, hu⟩ := Option.map_eq_some'.mp h
    have hjn : j ∉ nn :=
      robust_prune_not_self_aux g j _ alpha r nn (by simpa [neighbors] using hg j) hnn
    constructor
    · rw [← hu]
    · rw [← hu]
      exact hjn
  · obtain rfl : (j, [id]) = u := by simpa using h
    exact ⟨rfl, by simpa using hji⟩

theorem index_step_parts (g : Builder) (medoid : ℕ) (alpha : ℚ) (r l id : ℕ)
    (g1 g2 : Builder) (h : index_step g medoid alpha r l id = some (g1, g2)) :
    ∃ newN ups,
      robust_prune g id (greedy_search g medoid (get_vector g id) 1 l).2.1 alpha r = some newN
      ∧ (neighbors (pruneWriteBack g id newN) id).mapM
          (backUpdate (pruneWriteBack g id newN) id alpha r) = some ups
      ∧ g1 = pruneWriteBack g id newN
      ∧ g2 = Builder.mk g.vectors g.dim (ups.foldl applyBack (pruneWriteBack g id newN).adj) := by
  unfold index_step at h
  obtain ⟨newN, hnewN, h2⟩ := Option.bind_eq_some.mp h
  obtain ⟨ups, hups, h3⟩ := Option.map_eq_some'.mp h2
  obtain ⟨hg1, hg2⟩ := Prod.ext_iff.mp h3
  exact ⟨newN, ups, hnewN, hups, hg1.symm, hg2.symm⟩


theorem getD_mem_gen {α : Type} (l : List α) (d : α) :
    ∀ t : ℕ, t < l.length → l.getD t d ∈ l := by
  induction l with
  | nil => intro t ht; simp at ht
  | cons a l ih =>
    intro t ht
    rcases t with _ | t
    · simp
    · simp only [List.getD_cons_succ]
      exact List.mem_cons_of_mem _ (ih t (by simpa using ht))

theorem l2_nil_left (b : Vec) : l2 [] b = 0 := by simp [l2]

theorem l2_nil_right (a : Vec) : l2 a [] = 0 := by simp [l2]

theorem distance_const (g : Builder) (v : Vec) (h : ∀ w ∈ g.vectors, w = v) :
    ∀ a b, distance g a b = 0 := by
  intro a b
  have hv : ∀ i, get_vector g i = v ∨ get_vector g i = [] := by
    intro i
    by_cases hi : i < g.vectors.length
    · exact Or.inl (h _ (getD_mem_gen g.vectors [] i hi))
    · right
      simp [get_vector, List.getD, List.getElem?_eq_none (Nat.le_of_not_lt hi)]
  rcases hv a with ha | ha <;> rcases hv b with hb | hb <;>
    simp [distance, ha, hb, l2_self, l2_nil_left, l2_nil_right]

theorem neighbors_oob (g : Builder) (i : ℕ) (h : g.adj.length ≤ i) :
    neighbors g i = [] := by
  simp [neighbors, List.getD, List.getElem?_eq_none h]

theorem wf_of_bounded (g : Builder) (n : ℕ)
    (h : ∀ i, i < g.adj.length → ∀ j ∈ neighbors g i, j < n) :
    ∀ i, ∀ j ∈ neighbors g i, j < n := by
  intro i j hj
  by_cases hi : i < g.adj.length
  · exact h i hi j hj
  · rw [neighbors_oob g i (by omega)] at hj
    simp at hj

theorem noSelfLoop_of_bounded (adj : List (List ℕ))
    (h : ∀ i, i < adj.length → i ∉ adj.getD i []) : noSelfLoop adj := by
  intro i
  by_cases hi : i < adj.length
  · exact h i hi
  · simp [List.getD, List.getElem?_eq_none (show adj.length ≤ i by omega)]


/-! Claim theorems. -/

/-- Claim C1 (code evaluation at the failing input): in the back-neighbor
branch with the list of j not yet full, the write-back assigns the
single-element list holding only the processed id and discards the prior
neighbors of j. Processing vertex 0 of exA (after the prune write-back vertex
1 holds J = [2] and r = 3 would allow appending), vertex 1 ends with [0]
rather than the appended list [2, 0] the claim requires. -/
theorem index_pass_back_branch_single :
    (index_step exA 0 1 3 3 0).map (fun p => (neighbors p.1 1, neighbors p.2 1))
      = some ([2], [0])
    ∧ ([0] : List ℕ) ≠ [2, 0] := by
  constructor
  · with_unfolding_all decide
  · decide

/-- Claim C2 (code evaluation at the failing input): greedy_search pushes
nothing onto the frontier inside its loop, so only the start vertex is ever
expanded. On the chain exB from start 0 the run finishes with visited = only
vertex 0 and with the push ghost holding only the start, although vertex 1
(an unvisited neighbor of the expanded vertex 0, present in the returned
candidates) has the unexamined neighbor 2. -/
theorem greedy_search_frontier_starved :
    greedy_search exB 0 [0] 3 3 = ([0, 1], {0}, [0]) ∧ (2 : ℕ) ∈ neighbors exB 1 := by
  constructor
  · with_unfolding_all decide
  · decide

/-- Claim C3 (the code lacks the check the claim requires): with r ≥ N every
set the sampling loop of try_init can reach keeps fewer than r members — at
most the N - 1 distinct non-self ids exist — so the condition card < r never
turns false, the while loop never exits, and no ConfigError is ever returned
to the caller. -/
theorem try_init_sampling_never_reaches_r (n r i : ℕ) (samples : List ℕ)
    (s : Finset ℕ) (hi : i < n) (hr : n ≤ r) (hs : s ⊆ (Finset.range n).erase i)
    (hsam : ∀ x ∈ samples, x < n) :
    (sampleFold i r samples s).card < r := by
  have hsub := sampleFold_sub i n r samples s hs hsam
  have hcard : (sampleFold i r samples s).card ≤ ((Finset.range n).erase i).card :=
    Finset.card_le_card hsub
  have herase : ((Finset.range n).erase i).card = n - 1 := by
    rw [Finset.card_erase_of_mem (Finset.mem_range.mpr hi), Finset.card_range]
  omega

theorem try_init_sampling_never_reaches_r_witness :
    (sampleFold 0 50 [1, 2, 3] ∅).card < 50 :=
  try_init_sampling_never_reaches_r 10 50 0 [1, 2, 3] ∅ (by decide) (by decide)
    (by decide) (by decide)

/-- Claim C4 (counterexample): try_new takes no seed — its randomness comes
from thread_rng — and its output depends on that stream: with identical
dataset, column data, r, alpha and l, two runs whose init sampling streams
differ produce different neighbor lists, so two runs of build are not
guaranteed bit-identical. -/
theorem try_new_thread_rng_dependent :
    (try_new [[0], [4], [5], [6]] 1 1 1 2
        ⟨fun i => [(i + 1) % 4], [0, 1, 2, 3], [0, 1, 2, 3]⟩).map Builder.adj
      = some [[1], [2], [1], [2]]
    ∧ (try_new [[0], [4], [5], [6]] 1 1 1 2
        ⟨fun i => [(i + 2) % 4], [0, 1, 2, 3], [0, 1, 2, 3]⟩).map Builder.adj
      = some [[1], [2], [1], [1]]
    ∧ ([[1], [2], [1], [2]] : List (List ℕ)) ≠ [[1], [2], [1], [1]] := by
  refine ⟨?_, ?_, by decide⟩
  · with_unfolding_all decide
  · with_unfolding_all decide

/-- Claim C4 (amended): construction is a deterministic function of the
dataset, the parameters, and the full random stream consumed from thread_rng
(the init sampling draws and the two shuffled pass orders); the RNG seed of
the claim does not exist as an input of try_new. -/
theorem try_new_deterministic (vectors : List Vec) (dim r l : ℕ) (alpha : ℚ)
    (e₁ e₂ : Entropy) (h1 : e₁.initSamples = e₂.initSamples)
    (h2 : e₁.shuffle1 = e₂.shuffle1) (h3 : e₁.shuffle2 = e₂.shuffle2) :
    try_new vectors dim r alpha l e₁ = try_new vectors dim r alpha l e₂ := by
  cases e₁
  cases e₂
  simp only at h1 h2 h3
  subst h1
  subst h2
  subst h3
  rfl

theorem try_new_deterministic_witness :
    try_new [[0], [1]] 1 1 1 2 ⟨fun _ => [1], [0, 1], [0, 1]⟩
      = try_new [[0], [1]] 1 1 1 2 ⟨fun _ => [1], [0, 1], [0, 1]⟩ :=
  try_new_deterministic [[0], [1]] 1 1 2 1 _ _ rfl rfl rfl

/-- Claim C5 (counterexample): with r = 1 the selection loop breaks at the
degree cap and leaves candidates that were never covered: on exC the call
robust_prune(0, set 1 2, alpha 1, r 1) returns only vertex 2, and the
remaining candidate 1 has no selected p with dist(p, 1) ≤ dist(0, 1), since
dist(2, 1) = 25 exceeds dist(0, 1) = 9. -/
theorem robust_prune_monotone_fails :
    robust_prune exC 0 {1, 2} 1 1 = some [2]
    ∧ ¬ ∃ p ∈ ([2] : List ℕ), (1 : ℚ) * distance exC p 1 ≤ distance exC 0 1 := by
  constructor
  · with_unfolding_all decide
  · with_unfolding_all decide

/-- Claim C5 (amended): whenever robust_prune returns fewer than r neighbors
— the candidate pool was exhausted rather than the degree cap hit — every
candidate v of the effective set that was left out admits a selected p with
alpha * dist(p, v) ≤ dist(i, v); with the cap hit the guarantee covers only
candidates removed before the break. -/
theorem robust_prune_coverage (g : Builder) (id : ℕ) (V : Finset ℕ) (alpha : ℚ)
    (r : ℕ) (out : List ℕ) (h : robust_prune g id V alpha r = some out)
    (hlen : out.length < r) :
    ∀ v ∈ pruneVisited g id V, v ∉ out →
      ∃ p ∈ out, alpha * distance g p v ≤ distance g id v := by
  intro v hv hvout
  rcases pruneLoop_coverage g id alpha r _ _ _ _ _ h v hv with hc | hc | hc
  · exact absurd hc hvout
  · exact hc
  · omega

theorem robust_prune_coverage_witness :
    ∃ p ∈ ([1] : List ℕ), (1 : ℚ) * distance exD p 2 ≤ distance exD 0 2 :=
  robust_prune_coverage exD 0 {1, 2} 1 5 [1] (by with_unfolding_all decide)
    (by decide) 2 (by with_unfolding_all decide) (by decide)

/-- Claim C6 (counterexample): the candidate map is keyed by distance alone,
so an insertion at an existing distance replaces the stored id. On the two
identical vectors of exF with k = L = 2 the search returns a single
candidate, not exactly k = 2, and the id kept at the tied distance is the
later-inserted 1 rather than the lower id 0. -/
theorem greedy_search_not_exactly_k :
    (greedy_search exF 0 [0] 2 2).1 = [1]
    ∧ (greedy_search exF 0 [0] 2 2).1.length ≠ 2 := by
  constructor
  · with_unfolding_all decide
  · with_unfolding_all decide

/-- Claim C6 (amended): greedy_search returns at most k candidates — fewer
whenever fewer distinct distance keys survive, because an equal-distance
insertion replaces the stored id — each id within the vertex range, listed in
strictly ascending distance to the query. -/
theorem greedy_search_sorted (g : Builder) (start k L : ℕ) (q : Vec)
    (hwf : ∀ i, ∀ j ∈ neighbors g i, j < g.vectors.length)
    (hstart : start < g.vectors.length) :
    (greedy_search g start q k L).1.length ≤ k
    ∧ (∀ x ∈ (greedy_search g start q k L).1, x < g.vectors.length)
    ∧ ((greedy_search g start q k L).1.map (distance_to g q)).Pairwise (· < ·) := by
  obtain ⟨h1, h2, h3⟩ := searchLoop_inv g q L g.vectors.length hwf
    [⟨start, distance_to g q start⟩] ∅ (mapInsert (distance_to g q start) start [])
    (mapInsert_keysLt _ _ [] (by simp))
    (mapInsert_forall _ _ [] (by simp) rfl)
    (mapInsert_forall _ _ [] (by simp) hstart)
  refine ⟨?_, ?_, ?_⟩
  · simp only [greedy_search, List.length_map, List.length_take]
    exact Nat.min_le_left _ _
  · intro x hx
    simp only [greedy_search] at hx
    obtain ⟨e, he, rfl⟩ := List.mem_map.mp hx
    exact h3 e (List.take_subset _ _ he)
  · simp only [greedy_search]
    rw [List.map_map]
    refine List.pairwise_map.mpr ?_
    have hpair : List.Pairwise (fun a b : ℚ × ℕ => a.1 < b.1)
        ((searchLoop g q L [⟨start, distance_to g q start⟩] ∅
          (mapInsert (distance_to g q start) start [])).2.take k) :=
      List.Pairwise.sublist (List.take_sublist _ _) h1
    refine hpair.imp_of_mem ?_
    intro a b ha hb hab
    have h2a := h2 a (List.take_subset _ _ ha)
    have h2b := h2 b (List.take_subset _ _ hb)
    simpa [Function.comp, ← h2a, ← h2b] using hab

theorem greedy_search_sorted_witness :
    (greedy_search exB 0 [0] 3 3).1.length ≤ 3
    ∧ (∀ x ∈ (greedy_search exB 0 [0] 3 3).1, x < exB.vectors.length)
    ∧ ((greedy_search exB 0 [0] 3 3).1.map (distance_to exB [0])).Pairwise (· < ·) :=
  greedy_search_sorted exB 0 3 3 [0] (wf_of_bounded exB 3 (by decide)) (by decide)

/-- Claim C7 (counterexample): on the degenerate instance exE (eight identical
vectors, all pairwise distances zero) robust_prune with alpha = 1 and R = 3
terminates but returns a single neighbor, not exactly R = 3 of them: after
the first selection the rule alpha * 0 ≤ 0 removes every remaining
candidate. -/
theorem robust_prune_degenerate_not_r :
    robust_prune exE 0 {1, 2, 3, 4, 5, 6, 7} 1 3 = some [1]
    ∧ ([1] : List ℕ).length ≠ 3 := by
  constructor
  · with_unfolding_all decide
  · decide

/-- Claim C7 (amended): on any input with all pairwise distances zero and a
nonempty effective candidate set, robust_prune terminates and returns exactly
one neighbor, for every alpha and every degree cap. -/
theorem robust_prune_allzero (g : Builder) (id : ℕ) (V : Finset ℕ) (alpha : ℚ)
    (r : ℕ) (hd : ∀ a b, distance g a b = 0)
    (hne : (pruneVisited g id V).Nonempty) :
    ∃ p, robust_prune g id V alpha r = some [p] :=
  robust_prune_allzero_aux g id V alpha r hd hne

theorem robust_prune_allzero_witness :
    ∃ p, robust_prune exE 0 {1, 2, 3, 4, 5, 6, 7} 1 3 = some [p] :=
  robust_prune_allzero exE 0 {1, 2, 3, 4, 5, 6, 7} 1 3
    (distance_const exE [1, 1, 1] (by with_unfolding_all decide))
    (by decide)

/-- Claim C9: the two heap.pop().unwrap() sites inside the selection loop of
robust_prune never panic: the embedded robust_prune, whose pops return none
exactly where the source would panic on an empty heap, returns some output on
every input — every id still in the candidate set always has an un-popped
heap entry, so a member is found before the heap drains. -/
theorem robust_prune_total (g : Builder) (id : ℕ) (V : Finset ℕ) (alpha : ℚ)
    (r : ℕ) : ∃ out, robust_prune g id V alpha r = some out :=
  Option.isSome_iff_exists.mp (robust_prune_isSome_aux g id V alpha r)

/-- Claim C8: find_medoid returns the vertex whose vector minimizes the L2
distance to the arithmetic centroid of all vectors (the running sum and the
division by N modelled exactly over the rationals), ties broken by the lowest
internal id: every other vertex is no closer, and every vertex with a smaller
id is strictly farther. -/
theorem find_medoid_spec (g : Builder) (hne : g.vectors ≠ []) :
    ∃ m, find_medoid g = some m ∧ m < g.vectors.length
      ∧ (∀ j, j < g.vectors.length →
          l2 (centroid g.dim g.vectors) (get_vector g m)
            ≤ l2 (centroid g.dim g.vectors) (get_vector g j))
      ∧ ∀ j, j < m →
          l2 (centroid g.dim g.vectors) (get_vector g m)
            < l2 (centroid g.dim g.vectors) (get_vector g j) := by
  obtain ⟨m, hm⟩ := argmin_isSome (g.vectors.map fun v => l2 (centroid g.dim g.vectors) v)
    (by simpa using hne)
  obtain ⟨h1, h2, h3⟩ := argmin_spec _ m hm
  rw [List.length_map] at h1
  refine ⟨m, hm, h1, ?_, ?_⟩
  · intro j hj
    have hx := h2 j (by simpa using hj)
    rw [getD_map_l2 _ _ _ h1, getD_map_l2 _ _ _ hj] at hx
    simpa [get_vector] using hx
  · intro j hj
    have hx := h3 j hj
    rw [getD_map_l2 _ _ _ h1, getD_map_l2 _ _ _ (lt_trans hj h1)] at hx
    simpa [get_vector] using hx

theorem find_medoid_spec_witness :
    ∃ m, find_medoid exM = some m ∧ m < exM.vectors.length
      ∧ (∀ j, j < exM.vectors.length →
          l2 (centroid exM.dim exM.vectors) (get_vector exM m)
            ≤ l2 (centroid exM.dim exM.vectors) (get_vector exM j))
      ∧ ∀ j, j < m →
          l2 (centroid exM.dim exM.vectors) (get_vector exM m)
            < l2 (centroid exM.dim exM.vectors) (get_vector exM j) :=
  find_medoid_spec exM (by decide)

/-- Claim C10: no stage of construction creates a self-loop. Random init
leaves every adjacency list free of its own vertex for every sample stream;
robust_prune never emits its target (its candidate set erases the target and
the target is no neighbor of itself); and each index_pass step preserves
freedom from self-loops at the prune write-back, after every prefix of the
back-neighbor write-backs, and in the final state. -/
theorem construction_no_self_loops :
    (∀ n r samples, noSelfLoop (try_init n r samples))
    ∧ (∀ g id V alpha r out, id ∉ neighbors g id →
        robust_prune g id V alpha r = some out → id ∉ out)
    ∧ (∀ g medoid alpha r l id g1 g2, noSelfLoop g.adj →
        index_step g medoid alpha r l id = some (g1, g2) →
        noSelfLoop g1.adj
        ∧ (∀ ups k, (neighbors g1 id).mapM (backUpdate g1 id alpha r) = some ups →
            noSelfLoop ((ups.take k).foldl applyBack g1.adj))
        ∧ noSelfLoop g2.adj) := by
  refine ⟨try_init_noSelf, ?_, ?_⟩
  · intro g id V alpha r out hself h
    exact robust_prune_not_self_aux g id V alpha r out hself h
  · intro g medoid alpha r l id g1 g2 hg hstep
    obtain ⟨newN, ups0, hnewN, hups0, hg1, hg2⟩ :=
      index_step_parts g medoid alpha r l id g1 g2 hstep
    have hidn : id ∉ newN :=
      robust_prune_not_self_aux g id _ alpha r newN (by simpa [neighbors] using hg id) hnewN
    have hg1n : noSelfLoop g1.adj := by
      rw [hg1]
      exact applyBack_noSelf g.adj (id, newN) hg hidn
    have hid1 : id ∉ neighbors g1 id := by simpa [neighbors] using hg1n id
    have hcov : ∀ ups, (neighbors g1 id).mapM (backUpdate g1 id alpha r) = some ups →
        ∀ u ∈ ups, u.1 ∉ u.2 := by
      intro ups hups u hu
      obtain ⟨j, hj, hbu⟩ := mapM_mem_option _ _ _ hups u hu
      have hji : j ≠ id := fun he => hid1 (he ▸ hj)
      exact (backUpdate_no_self g1 id alpha r j hg1n hji u hbu).2
    refine ⟨hg1n, ?_, ?_⟩
    · intro ups k hups
      exact foldBack_noSelf _ _ hg1n
        (fun u hu => hcov ups hups u (List.take_subset _ _ hu))
    · have hups0' : (neighbors g1 id).mapM (backUpdate g1 id alpha r) = some ups0 := by
        rw [hg1]
        exact hups0
      have hall := hcov ups0 hups0'
      rw [hg2]
      have : (pruneWriteBack g id newN).adj = g1.adj := by rw [hg1]
      rw [this]
      exact foldBack_noSelf ups0 g1.adj hg1n hall

theorem construction_no_self_loops_witness :
    (0 : ℕ) ∉ ([1] : List ℕ)
    ∧ noSelfLoop (Builder.mk [[0], [1], [5]] 1 [[1], [0], []]).adj :=
  ⟨construction_no_self_loops.2.1 exA 0 {0} 1 3 [1] (by decide)
      (by with_unfolding_all decide),
    (construction_no_self_loops.2.2 exA 0 1 3 3 0
      (Builder.mk [[0], [1], [5]] 1 [[1], [2], []])
      (Builder.mk [[0], [1], [5]] 1 [[1], [0], []])
      (noSelfLoop_of_bounded _ (by decide))
      (by with_unfolding_all decide)).2.2⟩

end Vamana
